import Mathlib

/-!
Verification of the `SigViewport` timeline/view core (sigviewport.cpp).

The C++ code stores the axis transform in two `double` members `_scale` and
`_offset`; the embedding models doubles by exact rationals (`ℚ`), so every
theorem is about the ideal real-arithmetic behaviour of the algorithms
(the spec states its properties "within floating-point tolerance").
Machine `int` values are modelled by `ℤ`.  `floorf(log10f r)` is modelled
exactly as `Int.log 10 r` (the floor of the base-10 logarithm); `pow(10, n)`
as `zpow`; C integer division (truncation toward zero) as `Int.tdiv`.
`zoom` is only ever called with an integral step count
(`event->delta() / 120` is C integer division), so `steps : ℤ` and
`pow(3.0/2.0, -steps)` is the exact `zpow`.
-/

namespace PulseView

/-- State of a `SigViewport` widget: the axis transform (`_scale`, `_offset`)
and the mouse bookkeeping used by drag-to-pan (`_mouse_down_point.x()`,
`_mouse_down_offset`). -/
structure SigViewport where
  scale : ℚ
  offset : ℚ
  mouse_down_x : ℤ
  mouse_down_offset : ℚ

/-- Mouse event data consumed by the handlers: the x position and whether the
left button is held (`event->buttons() & Qt::LeftButton`). -/
structure MouseEvent where
  pos_x : ℤ
  left_button : Bool

namespace SigViewport

/-- Constant `SigViewport::MaxScale = 1e9`. -/
def MaxScale : ℚ := 1000000000

/-- Constant `SigViewport::MinScale = 1e-15`. -/
def MinScale : ℚ := 1 / 1000000000000000

/-- Constant `SigViewport::LabelMarginWidth = 70`. -/
def LabelMarginWidth : ℤ := 70

/-- Constant `SigViewport::MinorTickSubdivision = 4`. -/
def MinorTickSubdivision : ℤ := 4

/-- Constant `SigViewport::ScaleUnits[3] = {1, 2, 5}`. -/
def ScaleUnits : List ℤ := [1, 2, 5]

/-- Number of entries of `SigViewport::SIPrefixes` (countof = 9). -/
def numSIPrefixes : ℤ := 9

/-- Constant `SigViewport::FirstSIPrefixPower = -15`. -/
def FirstSIPrefixPower : ℤ := -15

/-- Local constant `MinSpacing = 80` of `paint_ruler`. -/
def MinSpacing : ℚ := 80

/-- The map from a time value to an absolute pixel column, as computed at
line 221 of `paint_ruler`: `x = (t - _offset) / _scale + LabelMarginWidth`. -/
def time_to_pixel (scale offset t : ℚ) : ℚ :=
  (t - offset) / scale + (LabelMarginWidth : ℚ)

/-- Inverse map from an absolute pixel column to a time value
(`pixel_to_time(x) = (x - margin) * scale + offset` in the spec). -/
def pixel_to_time (scale offset x : ℚ) : ℚ :=
  (x - (LabelMarginWidth : ℚ)) * scale + offset

/-- Method `SigViewport::zoom(double steps, int offset)`:
`cursor_offset = _offset + _scale * offset`;
`_scale *= pow(3.0/2.0, -steps)`;
`_scale = max(min(_scale, MaxScale), MinScale)`;
`_offset = cursor_offset - _scale * offset`.
The pixel argument is already relative to the label margin (the caller
`wheelEvent` passes `event->x() - LabelMarginWidth`). -/
def zoom (s : SigViewport) (steps : ℤ) (offset_px : ℤ) : SigViewport :=
  let cursor_offset : ℚ := s.offset + s.scale * (offset_px : ℚ)
  let scale1 : ℚ := s.scale * (3 / 2 : ℚ) ^ (-steps)
  let scale2 : ℚ := max (min scale1 MaxScale) MinScale
  { s with scale := scale2, offset := cursor_offset - scale2 * (offset_px : ℚ) }

/-- Method `SigViewport::mousePressEvent`: records the press position and the
offset at press time. -/
def mousePressEvent (s : SigViewport) (e : MouseEvent) : SigViewport :=
  { s with mouse_down_x := e.pos_x, mouse_down_offset := s.offset }

/-- Method `SigViewport::mouseMoveEvent`: while the left button is held,
`_offset = _mouse_down_offset + (_mouse_down_point - event->pos()).x() * _scale`;
otherwise no state changes. -/
def mouseMoveEvent (s : SigViewport) (e : MouseEvent) : SigViewport :=
  if e.left_button then
    { s with offset := s.mouse_down_offset +
        ((s.mouse_down_x - e.pos_x : ℤ) : ℚ) * s.scale }
  else s

/-- Record of one tick emitted by the `while(1)` loop of `paint_ruler`
(lines 218-243): its division counter, its time `t`, its pixel position `x`,
and whether it is drawn as a major tick (`division % MinorTickSubdivision == 0`). -/
structure Tick where
  division : ℤ
  t : ℚ
  x : ℚ
  is_major : Bool

/-- Local `min_period = _scale * MinSpacing` of `paint_ruler` (line 188). -/
def min_period (scale : ℚ) : ℚ := scale * MinSpacing

/-- Local `order = (int)floorf(log10f(min_period))` (line 190), modelled
exactly as the floor of the base-10 logarithm. -/
def order (scale : ℚ) : ℤ := Int.log 10 (min_period scale)

/-- Local `order_decimal = pow(10, order)` (line 191). -/
def order_decimal (scale : ℚ) : ℚ := (10 : ℚ) ^ order scale

/-- The do-while loop of lines 196-199: starting at `unit = 0`, set
`tick_period = order_decimal * ScaleUnits[unit++]` and repeat while
`tick_period < min_period && unit < countof(ScaleUnits)`.  The recursion
walks the remaining units; the `unit < countof` guard is the `[u]` case,
which keeps the last computed value unconditionally. -/
def select_tick_period : List ℤ → ℚ → ℚ → ℚ
  | [], _, _ => 0
  | [u], base, _ => base * (u : ℚ)
  | u :: rest, base, minp =>
    if base * (u : ℚ) < minp then select_tick_period rest base minp
    else base * (u : ℚ)

/-- Local `tick_period` selected by the do-while loop of `paint_ruler`. -/
def tick_period (scale : ℚ) : ℚ :=
  select_tick_period ScaleUnits (order_decimal scale) (min_period scale)

/-- Local `prefix = (order - FirstSIPrefixPower) / 3` (line 201); C integer
division truncates toward zero, which is `Int.tdiv`. -/
def si_prefix_index (scale : ℚ) : ℤ :=
  Int.tdiv (order scale - FirstSIPrefixPower) 3

/-- Local `minor_tick_period = tick_period / MinorTickSubdivision` (line 211). -/
def minor_tick_period (scale : ℚ) : ℚ :=
  tick_period scale / (MinorTickSubdivision : ℚ)

/-- Local `first_major_division = floor(_offset / tick_period)` (line 212). -/
def first_major_division (scale offset : ℚ) : ℤ :=
  ⌊offset / tick_period scale⌋

/-- Local `first_minor_division = ceil(_offset / minor_tick_period)` (line 213). -/
def first_minor_division (scale offset : ℚ) : ℤ :=
  ⌈offset / minor_tick_period scale⌉

/-- Local `t0 = first_major_division * tick_period` (line 214). -/
def t0 (scale offset : ℚ) : ℚ :=
  (first_major_division scale offset : ℚ) * tick_period scale

/-- Initial `division = (int)round(first_minor_division -
first_major_division * MinorTickSubdivision)` (lines 216-217); the operands
are exact integers, `round` is Mathlib's rounding of a rational. -/
def first_division (scale offset : ℚ) : ℤ :=
  round ((first_minor_division scale offset : ℚ) -
    (first_major_division scale offset : ℚ) * (MinorTickSubdivision : ℚ))

/-- Time of the tick with division counter `d`:
`t = t0 + division * minor_tick_period` (line 220). -/
def tick_time (scale offset : ℚ) (d : ℤ) : ℚ :=
  t0 scale offset + (d : ℚ) * minor_tick_period scale

/-- Pixel position of the tick with division counter `d`:
`x = (t - _offset) / _scale + LabelMarginWidth` (line 221). -/
def tick_x (scale offset : ℚ) (d : ℤ) : ℚ :=
  (tick_time scale offset d - offset) / scale + (LabelMarginWidth : ℚ)

/-- The `while(1)` loop of lines 218-243, with explicit fuel: compute the
candidate tick's `t` and `x`, break when `x >= width()`, otherwise emit the
tick (major iff `division % MinorTickSubdivision == 0`) and advance
`division` by one. -/
def tick_loop (scale offset : ℚ) (width : ℤ) : ℕ → ℤ → List Tick
  | 0, _ => []
  | fuel + 1, d =>
    let t := tick_time scale offset d
    let x := (t - offset) / scale + (LabelMarginWidth : ℚ)
    if (width : ℚ) ≤ x then []
    else Tick.mk d t x (d % MinorTickSubdivision == 0) ::
      tick_loop scale offset width fuel (d + 1)

/-- The tick sequence emitted by `paint_ruler` on a viewport of the given
width, starting from the initial division counter. -/
def paint_ruler_ticks (scale offset : ℚ) (width : ℤ) (fuel : ℕ) : List Tick :=
  tick_loop scale offset width fuel (first_division scale offset)

end SigViewport

open SigViewport

/-- Characterisation of the floor of the base-10 logarithm used by
`paint_ruler`: if `10 ^ e ≤ r < 10 ^ (e + 1)` then `Int.log 10 r = e`. -/
theorem log10_eq_of (r : ℚ) (e : ℤ) (hr : 0 < r) (h1 : (10 : ℚ) ^ e ≤ r)
    (h2 : r < (10 : ℚ) ^ (e + 1)) : Int.log 10 r = e := by
  have hcast : ((10 : ℕ) : ℚ) = (10 : ℚ) := by norm_num
  have hb : 1 < (10 : ℕ) := by norm_num
  have hle : e ≤ Int.log 10 r := by
    rw [← Int.zpow_le_iff_le_log hb hr, hcast]
    exact h1
  have hlt : Int.log 10 r < e + 1 := by
    rw [← Int.lt_zpow_iff_log_lt hb hr, hcast]
    exact h2
  omega

/-- The power of ten `order_decimal` is positive for every scale. -/
theorem order_decimal_pos (scale : ℚ) : 0 < order_decimal scale :=
  zpow_pos (by norm_num) _

/-- Closed form of the do-while multiplier selection on the table {1, 2, 5}. -/
theorem tick_period_eq (scale : ℚ) :
    tick_period scale =
      if order_decimal scale * 1 < min_period scale then
        if order_decimal scale * 2 < min_period scale then order_decimal scale * 5
        else order_decimal scale * 2
      else order_decimal scale * 1 := by
  simp only [tick_period, ScaleUnits, select_tick_period]
  norm_num

/-- The selected tick period is one of base, 2·base, 5·base. -/
theorem tick_period_cases (scale : ℚ) :
    tick_period scale = 1 * order_decimal scale ∨
      tick_period scale = 2 * order_decimal scale ∨
      tick_period scale = 5 * order_decimal scale := by
  rw [tick_period_eq]
  split_ifs with h1 h2
  · right; right; ring
  · right; left; ring
  · left; ring

/-- The selected tick period is positive for every scale. -/
theorem tick_period_pos (scale : ℚ) : 0 < tick_period scale := by
  have h := order_decimal_pos scale
  rcases tick_period_cases scale with hc | hc | hc <;> rw [hc] <;> linarith

/-- The minor tick period is positive for every scale. -/
theorem minor_tick_period_pos (scale : ℚ) : 0 < minor_tick_period scale := by
  have h := tick_period_pos scale
  unfold minor_tick_period MinorTickSubdivision
  positivity

/-- Upper bound coming from the definition of `order`:
`min_period < 10 ^ (order + 1) = 10 * order_decimal`. -/
theorem min_period_lt_ten_mul (scale : ℚ) :
    min_period scale < 10 * order_decimal scale := by
  have hcast : ((10 : ℕ) : ℚ) = (10 : ℚ) := by norm_num
  have h := Int.lt_zpow_succ_log_self (b := 10) (by norm_num) (min_period scale)
  rw [hcast] at h
  calc min_period scale < (10 : ℚ) ^ (Int.log 10 (min_period scale) + 1) := h
    _ = 10 * order_decimal scale := by
        rw [zpow_add_one₀ (by norm_num : (10 : ℚ) ≠ 0)]
        unfold order_decimal order
        ring

/-- Lower bound coming from the definition of `order`: for a positive scale,
`order_decimal = 10 ^ order ≤ min_period`. -/
theorem order_decimal_le_min_period (scale : ℚ) (h : 0 < scale) :
    order_decimal scale ≤ min_period scale := by
  have hcast : ((10 : ℕ) : ℚ) = (10 : ℚ) := by norm_num
  have hmp : 0 < min_period scale := by
    unfold min_period MinSpacing; positivity
  have := Int.zpow_log_le_self (b := 10) (by norm_num) hmp
  rw [hcast] at this
  unfold order_decimal order
  exact this

/-- The selected tick period exceeds half of `min_period` for every scale:
even when no multiplier reaches `min_period`, the final `5 * base` is more
than half of it because `min_period < 10 * base`. -/
theorem two_tick_period_gt (scale : ℚ) :
    min_period scale < 2 * tick_period scale := by
  have hod := order_decimal_pos scale
  have h10 := min_period_lt_ten_mul scale
  rw [tick_period_eq]
  split_ifs with h1 h2 <;> linarith

/-- C3: Tick multiplier set.  For every scale > 0, the major tick period
equals `m * 10 ^ order` for some `m` in the table `{1, 2, 5}`, where
`order = floor(log10(scale * 80))`. -/
theorem tick_period_in_multiplier_set (scale : ℚ) (h : 0 < scale) :
    ∃ m ∈ ScaleUnits, tick_period scale =
      (m : ℚ) * (10 : ℚ) ^ Int.log 10 (scale * MinSpacing) := by
  have horder : order scale = Int.log 10 (scale * MinSpacing) := rfl
  have hod : order_decimal scale = (10 : ℚ) ^ Int.log 10 (scale * MinSpacing) := by
    unfold order_decimal
    rw [horder]
  rcases tick_period_cases scale with hc | hc | hc
  · exact ⟨1, by simp [ScaleUnits], by rw [hc, hod]; norm_num⟩
  · exact ⟨2, by simp [ScaleUnits], by rw [hc, hod]; norm_num⟩
  · exact ⟨5, by simp [ScaleUnits], by rw [hc, hod]; norm_num⟩

/-- Witness for C3 at scale = 1/80. -/
theorem tick_period_in_multiplier_set_witness :
    (0 : ℚ) < 1 / 80 ∧ ∃ m ∈ ScaleUnits, tick_period (1 / 80) =
      (m : ℚ) * (10 : ℚ) ^ Int.log 10 ((1 / 80 : ℚ) * MinSpacing) :=
  ⟨by norm_num, tick_period_in_multiplier_set (1 / 80) (by norm_num)⟩

/-- Unfolding of the tick loop for one iteration, written with the named
time and pixel maps. -/
theorem tick_loop_succ (scale offset : ℚ) (width : ℤ) (fuel : ℕ) (d : ℤ) :
    tick_loop scale offset width (fuel + 1) d =
      if (width : ℚ) ≤ tick_x scale offset d then []
      else Tick.mk d (tick_time scale offset d) (tick_x scale offset d)
          (d % MinorTickSubdivision == 0) ::
        tick_loop scale offset width fuel (d + 1) := rfl

/-- The subdivision factor times the minor period gives back the major period. -/
theorem four_mul_minor (scale : ℚ) :
    (MinorTickSubdivision : ℚ) * minor_tick_period scale = tick_period scale := by
  unfold minor_tick_period MinorTickSubdivision
  push_cast
  ring

/-- The initial division counter is the exact integer
`first_minor_division - MinorTickSubdivision * first_major_division`. -/
theorem first_division_eq (scale offset : ℚ) :
    first_division scale offset =
      first_minor_division scale offset -
        MinorTickSubdivision * first_major_division scale offset := by
  unfold first_division
  have h : ((first_minor_division scale offset : ℚ) -
      (first_major_division scale offset : ℚ) * (MinorTickSubdivision : ℚ)) =
      ((first_minor_division scale offset -
        MinorTickSubdivision * first_major_division scale offset : ℤ) : ℚ) := by
    push_cast
    ring
  rw [h, round_intCast]

/-- Advancing the division counter by `k` advances the pixel position by
`k` times the per-division pixel step `minor_tick_period / scale`. -/
theorem tick_x_add (scale offset : ℚ) (d k : ℤ) :
    tick_x scale offset (d + k) =
      tick_x scale offset d + (k : ℚ) * (minor_tick_period scale / scale) := by
  unfold tick_x tick_time
  push_cast
  ring

/-- The pixel position is strictly increasing in the division counter. -/
theorem tick_x_lt_succ (scale offset : ℚ) (hs : 0 < scale) (d : ℤ) :
    tick_x scale offset d < tick_x scale offset (d + 1) := by
  rw [tick_x_add scale offset d 1]
  have hp : 0 < minor_tick_period scale / scale :=
    div_pos (minor_tick_period_pos scale) hs
  push_cast
  linarith

/-- The first element the tick loop could emit sits at the loop's current
division counter. -/
theorem tick_loop_head (scale offset : ℚ) (width : ℤ) (fuel : ℕ) (d : ℤ)
    (tk : Tick) (h : (tick_loop scale offset width fuel d).head? = some tk) :
    tk.x = tick_x scale offset d := by
  cases fuel with
  | zero => simp [tick_loop] at h
  | succ fuel =>
    rw [tick_loop_succ] at h
    split_ifs at h
    · simp at h
    · simp only [List.head?_cons, Option.some.injEq] at h
      rw [← h]

/-- Every tick emitted by the loop carries the time and majorness determined
by its own division counter. -/
theorem tick_loop_mem (scale offset : ℚ) (width : ℤ) :
    ∀ (fuel : ℕ) (d : ℤ) (tk : Tick), tk ∈ tick_loop scale offset width fuel d →
      tk.t = tick_time scale offset tk.division ∧
        tk.is_major = (tk.division % MinorTickSubdivision == 0)
  | 0, d, tk, h => by simp [tick_loop] at h
  | fuel + 1, d, tk, h => by
    rw [tick_loop_succ] at h
    split_ifs at h
    · simp at h
    · rcases List.mem_cons.mp h with h1 | h1
      · subst h1
        exact ⟨rfl, rfl⟩
      · exact tick_loop_mem scale offset width fuel (d + 1) tk h1

/-- The pixel positions emitted by the tick loop are strictly increasing. -/
theorem tick_loop_chain (scale offset : ℚ) (width : ℤ) (hs : 0 < scale) :
    ∀ (fuel : ℕ) (d : ℤ),
      List.Chain' (· < ·) ((tick_loop scale offset width fuel d).map Tick.x)
  | 0, d => by simp [tick_loop]
  | fuel + 1, d => by
    rw [tick_loop_succ]
    split_ifs with hx
    · simp
    · rw [List.map_cons]
      refine List.chain'_cons'.mpr
        ⟨?_, tick_loop_chain scale offset width hs fuel (d + 1)⟩
      intro y hy
      rw [List.head?_map] at hy
      obtain ⟨tk, htk, hmap⟩ := Option.map_eq_some'.mp hy
      rw [← hmap, tick_loop_head scale offset width fuel (d + 1) tk htk]
      exact tick_x_lt_succ scale offset hs d

/-- Once the pixel position `k` steps ahead has passed the right edge, any
fuel of at least `k` produces the same output as fuel exactly `k`. -/
theorem tick_loop_stable (scale offset : ℚ) (width : ℤ) :
    ∀ (k fuel : ℕ) (d : ℤ), k ≤ fuel →
      (width : ℚ) ≤ tick_x scale offset (d + (k : ℤ)) →
      tick_loop scale offset width fuel d = tick_loop scale offset width k d
  | 0, fuel, d, hk, hx => by
    cases fuel with
    | zero => rfl
    | succ fuel =>
      rw [tick_loop_succ, if_pos]
      · rfl
      · simpa using hx
  | k + 1, fuel, d, hk, hx => by
    cases fuel with
    | zero => omega
    | succ fuel =>
      rw [tick_loop_succ, tick_loop_succ]
      by_cases hxd : (width : ℚ) ≤ tick_x scale offset d
      · rw [if_pos hxd, if_pos hxd]
      · rw [if_neg hxd, if_neg hxd]
        congr 1
        refine tick_loop_stable scale offset width k fuel (d + 1) (by omega) ?_
        have harg : d + 1 + (k : ℤ) = d + ((k : ℕ) + 1 : ℤ) := by ring
        rw [harg]
        have hcast : (((k + 1 : ℕ)) : ℤ) = ((k : ℕ) + 1 : ℤ) := by push_cast; ring
        rw [hcast] at hx
        exact hx

/-- The first candidate tick's time is at or after the offset (the time at
the left edge of the plot area). -/
theorem first_tick_time_ge (scale offset : ℚ) :
    offset ≤ tick_time scale offset (first_division scale offset) := by
  have hm := minor_tick_period_pos scale
  have h4 := four_mul_minor scale
  have heq : tick_time scale offset (first_division scale offset) =
      (first_minor_division scale offset : ℚ) * minor_tick_period scale := by
    rw [first_division_eq]
    unfold tick_time t0
    rw [← h4]
    push_cast
    ring
  rw [heq]
  calc offset = offset / minor_tick_period scale * minor_tick_period scale := by
        field_simp
    _ ≤ (first_minor_division scale offset : ℚ) * minor_tick_period scale :=
        mul_le_mul_of_nonneg_right (Int.le_ceil _) (le_of_lt hm)

/-- The first candidate tick's pixel position is at or right of the label
margin. -/
theorem first_tick_x_ge (scale offset : ℚ) (hs : 0 < scale) :
    (LabelMarginWidth : ℚ) ≤ tick_x scale offset (first_division scale offset) := by
  unfold tick_x
  have h := first_tick_time_ge scale offset
  have hnn : 0 ≤ (tick_time scale offset (first_division scale offset) - offset) / scale :=
    div_nonneg (by linarith) (le_of_lt hs)
  linarith

/-- C7: Degenerate-viewport guard.  For every transform with scale > 0, if
the viewport width is zero or negative the tick loop emits zero ticks — the
first candidate tick's pixel position is already at or beyond the right
edge, so the loop breaks before drawing anything. -/
theorem degenerate_viewport_no_ticks (scale offset : ℚ) (width : ℤ) (fuel : ℕ)
    (hs : 0 < scale) (hw : width ≤ 0) :
    paint_ruler_ticks scale offset width fuel = [] ∧
      (width : ℚ) ≤ tick_x scale offset (first_division scale offset) := by
  have hx := first_tick_x_ge scale offset hs
  have h70 : (0 : ℚ) < (LabelMarginWidth : ℚ) := by norm_num [LabelMarginWidth]
  have hw' : (width : ℚ) ≤ 0 := by exact_mod_cast hw
  refine ⟨?_, by linarith⟩
  unfold paint_ruler_ticks
  cases fuel with
  | zero => rfl
  | succ fuel =>
    rw [tick_loop_succ, if_pos]
    linarith

/-- Witness for C7 at scale = 1, offset = 0, width = 0. -/
theorem degenerate_viewport_no_ticks_witness :
    (0 : ℚ) < 1 ∧ (0 : ℤ) ≤ 0 ∧ paint_ruler_ticks 1 0 0 3 = [] :=
  ⟨by norm_num, le_refl 0,
    (degenerate_viewport_no_ticks 1 0 0 3 (by norm_num) (le_refl 0)).1⟩

/-- C8: Tick loop termination.  For every scale at or above the minimum
bound and every offset and viewport width, the minor period is strictly
positive and the tick loop's output stabilises: there is a fuel bound `N`
past which more fuel never changes the emitted ticks, because each
iteration advances the pixel position by the positive step
`minor_tick_period / scale` until it reaches the right edge. -/
theorem tick_loop_terminates (scale offset : ℚ) (width : ℤ)
    (hs : MinScale ≤ scale) :
    0 < minor_tick_period scale ∧
      ∃ N : ℕ, ∀ fuel : ℕ, N ≤ fuel →
        paint_ruler_ticks scale offset width fuel =
          paint_ruler_ticks scale offset width N := by
  have hpos : 0 < scale := lt_of_lt_of_le (by norm_num [MinScale]) hs
  refine ⟨minor_tick_period_pos scale, ?_⟩
  have hp : 0 < minor_tick_period scale / scale :=
    div_pos (minor_tick_period_pos scale) hpos
  obtain ⟨N, hN⟩ := exists_nat_ge
    (((width : ℚ) - tick_x scale offset (first_division scale offset)) /
      (minor_tick_period scale / scale))
  refine ⟨N, fun fuel hfuel => ?_⟩
  unfold paint_ruler_ticks
  refine tick_loop_stable scale offset width N fuel
    (first_division scale offset) hfuel ?_
  rw [tick_x_add]
  have h1 : (width : ℚ) - tick_x scale offset (first_division scale offset) ≤
      (N : ℚ) * (minor_tick_period scale / scale) := by
    have := (div_le_iff₀ hp).mp hN
    linarith
  push_cast
  linarith

/-- Witness for C8 at scale = 1, offset = 0, width = 100. -/
theorem tick_loop_terminates_witness :
    MinScale ≤ (1 : ℚ) ∧
      (0 < minor_tick_period 1 ∧
        ∃ N : ℕ, ∀ fuel : ℕ, N ≤ fuel →
          paint_ruler_ticks 1 0 100 fuel = paint_ruler_ticks 1 0 100 N) :=
  ⟨by norm_num [MinScale], tick_loop_terminates 1 0 100 (by norm_num [MinScale])⟩

/-- C9: Absolute alignment of ticks.  For every transform, every emitted
tick lies at a time that is an exact integer multiple of the minor period,
and every tick classified as major (division counter divisible by
`MinorTickSubdivision`) lies at an exact integer multiple of the major tick
period, independent of the current offset. -/
theorem major_tick_alignment (scale offset : ℚ) (width : ℤ) (fuel : ℕ)
    (hs : 0 < scale) :
    ∀ tk ∈ paint_ruler_ticks scale offset width fuel,
      (∃ k : ℤ, tk.t = (k : ℚ) * minor_tick_period scale) ∧
        (tk.is_major = true → ∃ k : ℤ, tk.t = (k : ℚ) * tick_period scale) := by
  intro tk htk
  obtain ⟨ht, hmaj⟩ := tick_loop_mem scale offset width fuel _ tk htk
  constructor
  · refine ⟨MinorTickSubdivision * first_major_division scale offset + tk.division, ?_⟩
    rw [ht]
    unfold tick_time t0
    rw [← four_mul_minor scale]
    push_cast
    ring
  · intro hM
    rw [hmaj] at hM
    have hmod : tk.division % MinorTickSubdivision = 0 := by simpa using hM
    obtain ⟨j, hj⟩ := Int.dvd_of_emod_eq_zero hmod
    refine ⟨first_major_division scale offset + j, ?_⟩
    rw [ht, hj]
    unfold tick_time t0
    rw [← four_mul_minor scale]
    push_cast
    ring

/-- Witness for C9 at scale = 1. -/
theorem major_tick_alignment_witness :
    (0 : ℚ) < 1 ∧
      ∀ tk ∈ paint_ruler_ticks 1 0 100 5,
        (∃ k : ℤ, tk.t = (k : ℚ) * minor_tick_period 1) ∧
          (tk.is_major = true → ∃ k : ℤ, tk.t = (k : ℚ) * tick_period 1) :=
  ⟨by norm_num, major_tick_alignment 1 0 100 5 (by norm_num)⟩

/-- Projection of the scale produced by `zoom`: the clamped
`_scale * pow(3/2, -steps)`. -/
theorem zoom_scale_eq (s : SigViewport) (steps a : ℤ) :
    (s.zoom steps a).scale =
      max (min (s.scale * (3 / 2 : ℚ) ^ (-steps)) MaxScale) MinScale := rfl

/-- C2 (amended): Tick monotonicity and spacing.  For every transform with
scale > 0 and every viewport width, the emitted tick pixel positions are
strictly increasing; consecutive major ticks (division counters 4 apart)
are exactly `tick_period / scale` pixels apart, and that distance always
exceeds `MinSpacing / 2 = 40` pixels.  The full 80-pixel minimum fails in
general because the multiplier loop keeps `5 * base` even when it is below
`min_period`. -/
theorem ruler_ticks_spacing (scale offset : ℚ) (width : ℤ) (fuel : ℕ)
    (hs : 0 < scale) :
    List.Chain' (· < ·) ((paint_ruler_ticks scale offset width fuel).map Tick.x) ∧
      (∀ d : ℤ, tick_x scale offset (d + MinorTickSubdivision) -
        tick_x scale offset d = tick_period scale / scale) ∧
      MinSpacing / 2 < tick_period scale / scale := by
  refine ⟨tick_loop_chain scale offset width hs fuel _, fun d => ?_, ?_⟩
  · rw [tick_x_add, ← mul_div_assoc, four_mul_minor]
    ring
  · have h2 := two_tick_period_gt scale
    unfold min_period at h2
    rw [lt_div_iff₀ hs]
    unfold MinSpacing at h2 ⊢
    linarith

/-- Witness for C2 (amended) at scale = 1/80. -/
theorem ruler_ticks_spacing_witness :
    (0 : ℚ) < 1 / 80 ∧
      (List.Chain' (· < ·) ((paint_ruler_ticks (1 / 80) 0 100 5).map Tick.x) ∧
        (∀ d : ℤ, tick_x (1 / 80) 0 (d + MinorTickSubdivision) -
          tick_x (1 / 80) 0 d = tick_period (1 / 80) / (1 / 80)) ∧
        MinSpacing / 2 < tick_period (1 / 80) / (1 / 80)) :=
  ⟨by norm_num, ruler_ticks_spacing (1 / 80) 0 100 5 (by norm_num)⟩

/-- Counterexample to C2 as stated: at scale = 1/10 (so
`min_period = 8`), the selected tick period is `5 < 8 = min_period`, and the
ruler on a 130-pixel-wide viewport with offset 0 emits consecutive major
ticks at pixels 70 and 120 — only 50 pixels apart, below the 80-pixel
minimum spacing. -/
theorem ruler_spacing_counterexample :
    ((paint_ruler_ticks (1 / 10) 0 130 10).filter (fun tk => tk.is_major)).map
        Tick.x = [70, 120] ∧
      ((120 : ℚ) - 70 < MinSpacing) ∧
      tick_period (1 / 10) < min_period (1 / 10) := by
  have hmp : min_period (1 / 10 : ℚ) = 8 := by norm_num [min_period, MinSpacing]
  have horder : order (1 / 10 : ℚ) = 0 := by
    unfold order
    rw [hmp]
    exact log10_eq_of 8 0 (by norm_num) (by norm_num) (by norm_num)
  have hod : order_decimal (1 / 10 : ℚ) = 1 := by
    unfold order_decimal
    rw [horder]
    norm_num
  have htp : tick_period (1 / 10 : ℚ) = 5 := by
    rw [tick_period_eq, hod, hmp]
    norm_num
  have hminor : minor_tick_period (1 / 10 : ℚ) = 5 / 4 := by
    unfold minor_tick_period MinorTickSubdivision
    rw [htp]
    norm_num
  have hfmd : first_major_division (1 / 10) 0 = 0 := by
    unfold first_major_division
    rw [htp]
    norm_num
  have hfmi : first_minor_division (1 / 10) 0 = 0 := by
    unfold first_minor_division
    rw [hminor]
    norm_num
  have hd0 : first_division (1 / 10) 0 = 0 := by
    rw [first_division_eq, hfmd, hfmi]
    norm_num
  have ht0 : t0 (1 / 10) 0 = 0 := by
    unfold t0
    rw [hfmd]
    norm_num
  have htime : ∀ d : ℤ, tick_time (1 / 10) 0 d = (d : ℚ) * (5 / 4) := by
    intro d
    unfold tick_time
    rw [ht0, hminor]
    ring
  refine ⟨?_, by norm_num [MinSpacing], by rw [htp, hmp]; norm_num⟩
  unfold paint_ruler_ticks
  rw [hd0]
  norm_num [tick_loop, htime, MinorTickSubdivision, LabelMarginWidth]

/-- C5: Scale-bounds invariant and exact clamping.  Starting from any scale
in `[MinScale, MaxScale]`: after every zoom the scale still lies in the
bounds; a pan move leaves it in the bounds; all sufficiently large positive
step counts drive the scale to exactly `MinScale`, and all sufficiently
negative ones to exactly `MaxScale`. -/
theorem scale_clamping (s : SigViewport) (e : MouseEvent) (a : ℤ)
    (h1 : MinScale ≤ s.scale) (h2 : s.scale ≤ MaxScale) :
    (∀ steps : ℤ, MinScale ≤ (s.zoom steps a).scale ∧
        (s.zoom steps a).scale ≤ MaxScale) ∧
      (MinScale ≤ (s.mouseMoveEvent e).scale ∧
        (s.mouseMoveEvent e).scale ≤ MaxScale) ∧
      (∃ N : ℤ, ∀ steps : ℤ, N ≤ steps → (s.zoom steps a).scale = MinScale) ∧
      (∃ N : ℤ, ∀ steps : ℤ, steps ≤ N → (s.zoom steps a).scale = MaxScale) := by
  have hMM : MinScale ≤ MaxScale := by norm_num [MinScale, MaxScale]
  have hspos : 0 < s.scale := lt_of_lt_of_le (by norm_num [MinScale]) h1
  refine ⟨?_, ?_, ?_, ?_⟩
  · intro steps
    rw [zoom_scale_eq]
    exact ⟨le_max_right _ _, max_le (min_le_right _ _) hMM⟩
  · have hsc : (s.mouseMoveEvent e).scale = s.scale := by
      unfold SigViewport.mouseMoveEvent
      split_ifs <;> rfl
    rw [hsc]
    exact ⟨h1, h2⟩
  · obtain ⟨n, hn⟩ := exists_pow_lt_of_lt_one
      (show (0 : ℚ) < MinScale / MaxScale by norm_num [MinScale, MaxScale])
      (show (2 : ℚ) / 3 < 1 by norm_num)
    refine ⟨(n : ℤ), fun steps hsteps => ?_⟩
    rw [zoom_scale_eq]
    have heq : (3 / 2 : ℚ) ^ (-(n : ℤ)) = (2 / 3 : ℚ) ^ n := by
      rw [zpow_neg, zpow_natCast, ← inv_pow]
      norm_num
    have hmono : (3 / 2 : ℚ) ^ (-steps) ≤ (3 / 2 : ℚ) ^ (-(n : ℤ)) :=
      zpow_le_zpow_right₀ (by norm_num) (by omega)
    have hpow : (3 / 2 : ℚ) ^ (-steps) < MinScale / MaxScale := by
      rw [heq] at hmono
      exact lt_of_le_of_lt hmono hn
    have hz : s.scale * (3 / 2 : ℚ) ^ (-steps) ≤ MinScale := by
      calc s.scale * (3 / 2 : ℚ) ^ (-steps)
          ≤ MaxScale * (3 / 2 : ℚ) ^ (-steps) :=
            mul_le_mul_of_nonneg_right h2 (le_of_lt (zpow_pos (by norm_num) _))
        _ ≤ MaxScale * (MinScale / MaxScale) :=
            mul_le_mul_of_nonneg_left (le_of_lt hpow) (by norm_num [MaxScale])
        _ = MinScale := by norm_num [MinScale, MaxScale]
    rw [min_eq_left (le_trans hz hMM), max_eq_right hz]
  · obtain ⟨n, hn⟩ := pow_unbounded_of_one_lt (α := ℚ) (MaxScale / MinScale)
      (show (1 : ℚ) < 3 / 2 by norm_num)
    refine ⟨-(n : ℤ), fun steps hsteps => ?_⟩
    rw [zoom_scale_eq]
    have hmono : (3 / 2 : ℚ) ^ ((n : ℤ)) ≤ (3 / 2 : ℚ) ^ (-steps) :=
      zpow_le_zpow_right₀ (by norm_num) (by omega)
    have hpow : MaxScale / MinScale < (3 / 2 : ℚ) ^ (-steps) := by
      rw [zpow_natCast] at hmono
      exact lt_of_lt_of_le hn hmono
    have hz : MaxScale ≤ s.scale * (3 / 2 : ℚ) ^ (-steps) := by
      calc MaxScale = MinScale * (MaxScale / MinScale) := by
            norm_num [MinScale, MaxScale]
        _ ≤ s.scale * (MaxScale / MinScale) :=
            mul_le_mul_of_nonneg_right h1 (by norm_num [MinScale, MaxScale])
        _ ≤ s.scale * (3 / 2 : ℚ) ^ (-steps) :=
            mul_le_mul_of_nonneg_left (le_of_lt hpow) (le_of_lt hspos)
    rw [min_eq_right hz, max_eq_left hMM]

/-- Witness for C5 at scale = 1. -/
theorem scale_clamping_witness :
    MinScale ≤ (SigViewport.mk 1 0 0 0).scale ∧
      (SigViewport.mk 1 0 0 0).scale ≤ MaxScale ∧
      (∃ N : ℤ, ∀ steps : ℤ, N ≤ steps →
        ((SigViewport.mk 1 0 0 0).zoom steps 7).scale = MinScale) :=
  ⟨by norm_num [MinScale], by norm_num [MaxScale],
    (scale_clamping (SigViewport.mk 1 0 0 0) (MouseEvent.mk 0 false) 7
      (by norm_num [MinScale]) (by norm_num [MaxScale])).2.2.1⟩

/-- C6: SI-prefix assertion validity.  For every scale in
`[MinScale, MaxScale]`, the prefix index `(order - FirstSIPrefixPower) / 3`
(C truncating division) is at least 0 and below 9, so both assertions of
`paint_ruler` hold and indexing the 9-entry `SIPrefixes` table is in
bounds. -/
theorem si_prefix_index_bounds (scale : ℚ)
    (h1 : MinScale ≤ scale) (h2 : scale ≤ MaxScale) :
    0 ≤ si_prefix_index scale ∧ si_prefix_index scale < numSIPrefixes := by
  have hpos : 0 < scale := lt_of_lt_of_le (by norm_num [MinScale]) h1
  have hmp_pos : 0 < min_period scale := by
    unfold min_period MinSpacing
    positivity
  have hcast : ((10 : ℕ) : ℚ) = (10 : ℚ) := by norm_num
  have hlow : (-14 : ℤ) ≤ order scale := by
    unfold order
    rw [← Int.zpow_le_iff_le_log (by norm_num) hmp_pos, hcast]
    have hz : (10 : ℚ) ^ (-14 : ℤ) = 1 / 100000000000000 := by norm_num
    rw [hz]
    unfold min_period MinSpacing
    unfold MinScale at h1
    linarith
  have hup : order scale < 11 := by
    unfold order
    rw [← Int.lt_zpow_iff_log_lt (by norm_num) hmp_pos, hcast]
    have hz : (10 : ℚ) ^ (11 : ℤ) = 100000000000 := by norm_num
    rw [hz]
    unfold min_period MinSpacing
    unfold MaxScale at h2
    linarith
  unfold si_prefix_index FirstSIPrefixPower numSIPrefixes
  rw [Int.tdiv_eq_ediv (by omega) (by norm_num)]
  omega

/-- Witness for C6 at scale = 1. -/
theorem si_prefix_index_bounds_witness :
    MinScale ≤ (1 : ℚ) ∧ (1 : ℚ) ≤ MaxScale ∧
      (0 ≤ si_prefix_index 1 ∧ si_prefix_index 1 < numSIPrefixes) :=
  ⟨by norm_num [MinScale], by norm_num [MaxScale],
    si_prefix_index_bounds 1 (by norm_num [MinScale]) (by norm_num [MaxScale])⟩

/-- C1: Zoom anchor invariance.  For every transform with scale in
`[MinScale, MaxScale]`, every anchor pixel and every non-zero step count,
after `zoom(steps, anchorPixel)` the time under the anchor pixel
(`offset + scale * anchorPixel`) computed with the new `(scale, offset)`
equals the value computed with the old `(scale, offset)`, including when the
new scale is clamped. -/
theorem zoom_anchor_invariance (s : SigViewport) (steps a : ℤ)
    (h1 : MinScale ≤ s.scale) (h2 : s.scale ≤ MaxScale) (h3 : steps ≠ 0) :
    (s.zoom steps a).offset + (s.zoom steps a).scale * (a : ℚ) =
      s.offset + s.scale * (a : ℚ) := by
  simp only [SigViewport.zoom]
  ring

/-- Witness for C1 at scale = 1, offset = 0, steps = 1, anchor = 5. -/
theorem zoom_anchor_invariance_witness :
    MinScale ≤ (SigViewport.mk 1 0 0 0).scale ∧
      (SigViewport.mk 1 0 0 0).scale ≤ MaxScale ∧ (1 : ℤ) ≠ 0 ∧
      ((SigViewport.mk 1 0 0 0).zoom 1 5).offset +
          ((SigViewport.mk 1 0 0 0).zoom 1 5).scale * ((5 : ℤ) : ℚ) =
        (SigViewport.mk 1 0 0 0).offset +
          (SigViewport.mk 1 0 0 0).scale * ((5 : ℤ) : ℚ) :=
  ⟨by norm_num [MinScale], by norm_num [MaxScale], by norm_num,
    zoom_anchor_invariance (SigViewport.mk 1 0 0 0) 1 5
      (by norm_num [MinScale]) (by norm_num [MaxScale]) (by norm_num)⟩

/-- C4: Round-trip transform.  For every scale > 0, every offset and every
pixel `x`, composing `pixel_to_time` with `time_to_pixel` returns `x`. -/
theorem time_pixel_round_trip (scale offset x : ℚ) (h : 0 < scale) :
    time_to_pixel scale offset (pixel_to_time scale offset x) = x := by
  unfold time_to_pixel pixel_to_time
  field_simp

/-- Witness for C4 at scale = 2, offset = 7, x = 11. -/
theorem time_pixel_round_trip_witness :
    (0 : ℚ) < 2 ∧ time_to_pixel 2 7 (pixel_to_time 2 7 11) = 11 :=
  ⟨by norm_num, time_pixel_round_trip 2 7 11 (by norm_num)⟩

/-- C10: Pan preserves scale.  A drag-to-pan move event (left button held)
mutates only the offset, to `mouseDownOffset + (mouseDownX - currentX) * scale`;
the scale and the mouse-down bookkeeping are unchanged. -/
theorem pan_preserves_scale (s : SigViewport) (e : MouseEvent)
    (h : e.left_button = true) :
    (s.mouseMoveEvent e).scale = s.scale ∧
      (s.mouseMoveEvent e).offset =
        s.mouse_down_offset + ((s.mouse_down_x - e.pos_x : ℤ) : ℚ) * s.scale ∧
      (s.mouseMoveEvent e).mouse_down_x = s.mouse_down_x ∧
      (s.mouseMoveEvent e).mouse_down_offset = s.mouse_down_offset := by
  simp [SigViewport.mouseMoveEvent, h]

/-- Witness for C10 at a concrete state and event. -/
theorem pan_preserves_scale_witness :
    (MouseEvent.mk 3 true).left_button = true ∧
      ((SigViewport.mk 2 5 9 4).mouseMoveEvent (MouseEvent.mk 3 true)).scale =
        (SigViewport.mk 2 5 9 4).scale :=
  ⟨rfl, (pan_preserves_scale (SigViewport.mk 2 5 9 4) (MouseEvent.mk 3 true) rfl).1⟩

end PulseView
